import Mathlib

/-!
Shallow embedding of `Week3/GCN-Graph/GCN.py`: a notebook-style script that
carves a K-node subgraph out of the ogbn-products graph, splits its nodes into
train/valid/test index sets, and trains a 4-hidden-layer GCN with batch
normalization, ReLU and dropout, tracking the best validation accuracy.

Tensors are modelled as lists (matrices as lists of row lists); real-valued
tensor entries are modelled as exact reals (`ℝ`) where the network's math
(square roots, exp/log of softmax) demands it, and as `ℚ`/`Nat`/`Int` in the
purely structural data-preparation code, keeping those parts executable.
-/

/-! ## Graph data (PyG `Data` object after `ToSparseTensor` + `edge_index` rebuild)

The script stores node features `data.x` (N rows of F floats), labels `data.y`
(N class ids) and the edge list `data.edge_index` (pairs of node positions,
recovered from the sparse adjacency's row/col storage). -/

structure GraphData where
  x : List (List ℚ)
  y : List Int
  edge_index : List (Nat × Nat)
  num_nodes : Nat
deriving DecidableEq

/-- Embedding of `data.subgraph(torch.arange(K))` (PyG `Data.subgraph` with the
subset being the first `K` node positions, so relabelling is the identity):
features and labels are sliced to the first `K` rows, only edges with both
endpoints below `K` are retained, and the node count becomes `K`. -/
def subgraph (g : GraphData) (K : Nat) : GraphData :=
  { x := g.x.take K
    y := g.y.take K
    edge_index := g.edge_index.filter (fun e => decide (e.1 < K ∧ e.2 < K))
    num_nodes := K }

/-- Minimal model of `torch_sparse.SparseTensor(row=..., col=...)`: the stored
coordinate lists. (`sparse_sizes=None`, `is_sorted=True`, `trust_data=True`
skip validation and size inference; they add no further structure here.) -/
structure SparseTensor where
  row : List Nat
  col : List Nat
deriving DecidableEq

/-- Embedding of the script's rebuild
`SparseTensor(row=sub_graph.edge_index[0], col=sub_graph.edge_index[1], ...)`. -/
def adj_t (g : GraphData) : SparseTensor :=
  { row := g.edge_index.map Prod.fst
    col := g.edge_index.map Prod.snd }

/-! ## Train/valid/test split

`split_sizes = [int(K*0.8), int(K*0.05), int(K*0.15)]` — the Python floats
truncate to exactly the floors `⌊80K/100⌋, ⌊5K/100⌋, ⌊15K/100⌋` for every node
count in the dataset's range, so the sizes are embedded with `Nat` division. -/

def split_sizes (K : Nat) : List Nat :=
  [K * 80 / 100, K * 5 / 100, K * 15 / 100]

/-- Embedding of `torch.split(tensor, sections, dim=0)` with a list of section
sizes: the tensor is cut into consecutive chunks of the given lengths.
`split_with_sizes` requires the sizes to sum exactly to the length of the
split dimension and raises a `RuntimeError` otherwise; the error is modelled
as `none`. -/
def splitWithSizes {α : Type} : List α → List Nat → Option (List (List α))
  | xs, [] => if xs.isEmpty then some [] else none
  | xs, n :: ns =>
      if n ≤ xs.length then
        (splitWithSizes (xs.drop n) ns).map (fun cs => xs.take n :: cs)
      else
        none

/-- Embedding of the split generator
`torch.split(indices, split_sizes, dim=0)` zipped with
`["train", "valid", "test"]`: `indices` is the shuffled `arange(K)` tensor. -/
def split_idx (indices : List Nat) (K : Nat) : Option (List (List Nat)) :=
  splitWithSizes indices (split_sizes K)

/-! ### Helper lemmas about `splitWithSizes` -/

theorem splitWithSizes_sum_eq {α : Type} :
    ∀ (ns : List Nat) (xs : List α), ns.sum = xs.length →
      ∃ cs, splitWithSizes xs ns = some cs ∧
        cs.map List.length = ns ∧ cs.flatten = xs := by
  intro ns
  induction ns with
  | nil =>
      intro xs h
      have hx : xs = [] := List.eq_nil_of_length_eq_zero (by simpa using h.symm)
      subst hx
      exact ⟨[], by simp [splitWithSizes], by simp, by simp⟩
  | cons n ns ih =>
      intro xs h
      simp only [List.sum_cons] at h
      have hn : n ≤ xs.length := by omega
      have hdrop : ns.sum = (xs.drop n).length := by
        simp [List.length_drop]
        omega
      obtain ⟨cs, hsplit, hlen, hjoin⟩ := ih (xs.drop n) hdrop
      refine ⟨xs.take n :: cs, ?_, ?_, ?_⟩
      · simp [splitWithSizes, hn, hsplit]
      · simp [hlen, List.length_take, Nat.min_eq_left hn]
      · simp [hjoin]

theorem sum_eq_of_splitWithSizes_some {α : Type} :
    ∀ (ns : List Nat) (xs : List α) (cs : List (List α)),
      splitWithSizes xs ns = some cs → ns.sum = xs.length := by
  intro ns
  induction ns with
  | nil =>
      intro xs cs h
      by_cases hx : xs.isEmpty
      · simp [List.isEmpty_iff.mp hx]
      · simp [splitWithSizes, hx] at h
  | cons n ns ih =>
      intro xs cs h
      by_cases hn : n ≤ xs.length
      · simp only [splitWithSizes, if_pos hn, Option.map_eq_some'] at h
        obtain ⟨cs', hsplit, _⟩ := h
        have := ih (xs.drop n) cs' hsplit
        simp only [List.length_drop] at this
        simp only [List.sum_cons]
        omega
      · simp [splitWithSizes, hn] at h

theorem split_sizes_sum_le (K : Nat) : (split_sizes K).sum ≤ K := by
  have h80 : K * 80 / 100 * 100 ≤ K * 80 := Nat.div_mul_le_self _ _
  have h5 : K * 5 / 100 * 100 ≤ K * 5 := Nat.div_mul_le_self _ _
  have h15 : K * 15 / 100 * 100 ≤ K * 15 := Nat.div_mul_le_self _ _
  simp only [split_sizes, List.sum_cons, List.sum_nil]
  omega

/-! ## Claims C2 and C3: subgraph extraction -/

/-- C2: for every node budget `K` not exceeding the full graph's node count,
`data.subgraph(torch.arange(K))` yields a graph with exactly `K` nodes whose
feature matrix has shape `K × F` (the original feature dimension), with labels
sliced to those `K` nodes. -/
theorem subgraph_shape (g : GraphData) (K F : Nat)
    (hK : K ≤ g.num_nodes) (hx : g.x.length = g.num_nodes)
    (hy : g.y.length = g.num_nodes) (hF : ∀ r ∈ g.x, r.length = F) :
    (subgraph g K).num_nodes = K ∧
    (subgraph g K).x.length = K ∧
    (∀ r ∈ (subgraph g K).x, r.length = F) ∧
    (subgraph g K).y.length = K := by
  refine ⟨rfl, ?_, ?_, ?_⟩
  · simp only [subgraph, List.length_take]
    omega
  · intro r hr
    exact hF r (List.take_subset _ _ hr)
  · simp only [subgraph, List.length_take]
    omega

theorem subgraph_shape_witness :
    (subgraph ⟨[[1], [2], [3]], [0, 1, 0], [(0, 1), (1, 2)], 3⟩ 2).num_nodes = 2 ∧
    (subgraph ⟨[[1], [2], [3]], [0, 1, 0], [(0, 1), (1, 2)], 3⟩ 2).x.length = 2 ∧
    (∀ r ∈ (subgraph ⟨[[1], [2], [3]], [0, 1, 0], [(0, 1), (1, 2)], 3⟩ 2).x,
      r.length = 1) ∧
    (subgraph ⟨[[1], [2], [3]], [0, 1, 0], [(0, 1), (1, 2)], 3⟩ 2).y.length = 2 :=
  subgraph_shape ⟨[[1], [2], [3]], [0, 1, 0], [(0, 1), (1, 2)], 3⟩ 2 1
    (by decide) (by decide) (by decide) (by decide)

/-- C3: every edge `(u, v)` retained in the rebuilt sparse adjacency of the
extracted subgraph has both endpoints below `K`, the subgraph node count;
edges with an endpoint outside `[0, K)` are dropped by the extraction. -/
theorem adj_t_endpoints_lt (g : GraphData) (K u v : Nat)
    (h : (u, v) ∈ (adj_t (subgraph g K)).row.zip (adj_t (subgraph g K)).col) :
    u < K ∧ v < K := by
  simp only [adj_t, subgraph] at h
  rw [List.zip_map'] at h
  obtain ⟨e, he, heq⟩ := List.mem_map.mp h
  obtain ⟨_, hlt⟩ := List.mem_filter.mp he
  obtain ⟨h1, h2⟩ := of_decide_eq_true hlt
  have hu : e.1 = u := congrArg Prod.fst heq
  have hv : e.2 = v := congrArg Prod.snd heq
  subst hu
  subst hv
  exact ⟨h1, h2⟩

theorem adj_t_endpoints_lt_witness : 0 < 2 ∧ 1 < 2 :=
  adj_t_endpoints_lt ⟨[[1], [2], [3]], [0, 1, 0], [(0, 1), (1, 0), (1, 2)], 3⟩ 2 0 1
    (by decide)

/-! ## Claims C4 and C5: the split generator

The original claims assume `torch.split` silently leaves surplus indices
unassigned when the three computed sizes sum to fewer than `K`; in fact
`torch.split` with a list of sizes delegates to `split_with_sizes`, which
requires the sizes to sum exactly to the length being split and raises a
`RuntimeError` otherwise. The counterexamples below exhibit node counts where
this happens; the amended theorems characterize the actual behaviour. -/

/-- C4 counterexample: at node count `K = 3` (a shuffle of `arange(3)` being
`[2, 0, 1]`), the computed sizes are `[2, 0, 0]`, which sum to `2 < 3`, and the
split generator produces no train/valid/test sets at all — `torch.split`
raises instead. -/
theorem split_idx_three_produces_nothing :
    split_sizes 3 = [2, 0, 0] ∧ split_idx [2, 0, 1] 3 = none := by decide

/-- C4 (amended): the three computed sizes always sum to at most `K`, and for
every `K` and every shuffled index permutation for which they sum to exactly
`K` (as for the script's `K = 100000`, whose sizes are 80000/5000/15000), the
split generator produces train, valid and test sets of sizes
`⌊K·0.80⌋`, `⌊K·0.05⌋` and `⌊K·0.15⌋`, pairwise disjoint; for the remaining
`K` it raises an error instead of producing the sets. -/
theorem split_idx_sizes_disjoint (K : Nat) (indices : List Nat)
    (hperm : indices.Perm (List.range K)) :
    (split_sizes K).sum ≤ K ∧
    ((split_sizes K).sum = K →
      ∃ tr va te, split_idx indices K = some [tr, va, te] ∧
        tr.length = K * 80 / 100 ∧ va.length = K * 5 / 100 ∧
        te.length = K * 15 / 100 ∧
        tr.Disjoint va ∧ tr.Disjoint te ∧ va.Disjoint te) := by
  refine ⟨split_sizes_sum_le K, fun hsum => ?_⟩
  have hlen : indices.length = K := by simpa using hperm.length_eq
  have hsum' : (split_sizes K).sum = indices.length := by rw [hlen]; exact hsum
  obtain ⟨cs, hsplit, hmaplen, hflat⟩ := splitWithSizes_sum_eq _ _ hsum'
  rcases cs with _ | ⟨tr, cs⟩
  · simp [split_sizes] at hmaplen
  rcases cs with _ | ⟨va, cs⟩
  · simp [split_sizes] at hmaplen
  rcases cs with _ | ⟨te, cs⟩
  · simp [split_sizes] at hmaplen
  rcases cs with _ | ⟨junk, cs⟩
  swap
  · simp [split_sizes] at hmaplen
  simp only [List.map_cons, List.map_nil, split_sizes, List.cons.injEq,
    and_true] at hmaplen
  obtain ⟨htr, hva, hte⟩ := hmaplen
  have hnd : indices.Nodup := hperm.symm.nodup (List.nodup_range K)
  rw [← hflat] at hnd
  simp only [List.flatten_cons, List.flatten_nil, List.append_nil] at hnd
  obtain ⟨-, hnd2, hdisj1⟩ := List.nodup_append.mp hnd
  obtain ⟨-, -, hdisj2⟩ := List.nodup_append.mp hnd2
  obtain ⟨hdtv, hdtt⟩ := List.disjoint_append_right.mp hdisj1
  exact ⟨tr, va, te, hsplit, htr, hva, hte, hdtv, hdtt, hdisj2⟩

theorem split_idx_sizes_disjoint_witness :
    (split_sizes 20).sum ≤ 20 ∧
    (∃ tr va te, split_idx (List.range 20) 20 = some [tr, va, te] ∧
      tr.length = 20 * 80 / 100 ∧ va.length = 20 * 5 / 100 ∧
      te.length = 20 * 15 / 100 ∧
      tr.Disjoint va ∧ tr.Disjoint te ∧ va.Disjoint te) :=
  ⟨(split_idx_sizes_disjoint 20 (List.range 20) (List.Perm.refl _)).1,
   (split_idx_sizes_disjoint 20 (List.range 20) (List.Perm.refl _)).2 (by decide)⟩

/-- C5 counterexample: at node count `K = 21` the computed sizes `[16, 1, 3]`
sum to `20 < 21`, and the split generator does not succeed with the surplus
index silently unassigned — it produces nothing (`torch.split` raises). -/
theorem split_idx_twentyone_not_silent :
    (split_sizes 21).sum < 21 ∧ split_idx (List.range 21) 21 = none := by decide

/-- C5 (amended): for every node count `K` whose three computed sizes
`⌊K·0.80⌋, ⌊K·0.05⌋, ⌊K·0.15⌋` sum to fewer than `K`, the split generator
raises an error (`torch.split` requires the section sizes to sum exactly to
the tensor's length); no silent dropping of surplus indices occurs. -/
theorem split_idx_short_sum_errors (K : Nat) (indices : List Nat)
    (hlen : indices.length = K) (hshort : (split_sizes K).sum < K) :
    split_idx indices K = none := by
  cases h : split_idx indices K with
  | none => rfl
  | some cs =>
      have hsum := sum_eq_of_splitWithSizes_some (split_sizes K) indices cs h
      rw [hlen] at hsum
      omega

theorem split_idx_short_sum_errors_witness : split_idx [2, 0, 1] 3 = none :=
  split_idx_short_sum_errors 3 [2, 0, 1] (by decide) (by decide)

/-! ## The GCN model

The network's numerical entries are exact reals; the random initialization of
`__init__` and the random dropout masks are modelled as explicit arguments
over which the theorems quantify. -/

noncomputable section

/-- Parameters of one `GCNConv(in_dim, out_dim)` layer: weight matrix `W`
(`in_dim` rows of `out_dim` entries each) and bias `b` (`out_dim` entries,
present by default). -/
structure GCNConvParams where
  W : List (List ℝ)
  b : List ℝ

/-- Parameters of one `nn.BatchNorm1d(hidden_dim)` layer: learned affine
parameters (`weight`/`bias`) and the running statistics used in eval mode. -/
structure BatchNormParams where
  gamma : List ℝ
  beta : List ℝ
  running_mean : List ℝ
  running_var : List ℝ

/-- BatchNorm's `eps` constant (PyTorch default `1e-5`). -/
def bnEps : ℝ := 1 / 100000

/-- Degree, including the self-loop added by `gcn_norm`, of node `u` under
the `adj_t` orientation: `1 + #{e ∈ edges | e.1 = u}`. -/
def degHat (edges : List (Nat × Nat)) (u : Nat) : Nat :=
  1 + (edges.filter (fun e => decide (e.1 = u))).length

/-- Symmetric normalization coefficient `1/√(deg(u)·deg(v))` applied by
`GCNConv`'s `gcn_norm` (add self-loops, then `D^(-1/2)·(A+I)·D^(-1/2)`). -/
def gcnCoeff (edges : List (Nat × Nat)) (u v : Nat) : ℝ :=
  1 / (Real.sqrt (degHat edges u) * Real.sqrt (degHat edges v))

/-- Neighborhood aggregation `Â·X` of `GCNConv` over the sparse adjacency:
row `u` of the result sums the self-loop contribution and the contributions
of the stored edges pointing at `u`. -/
def aggregate (edges : List (Nat × Nat)) (x : List (List ℝ)) : List (List ℝ) :=
  (List.range x.length).map (fun u =>
    (List.range (x.getD u []).length).map (fun j =>
      gcnCoeff edges u u * (x.getD u []).getD j 0 +
        ((edges.filter (fun e => decide (e.1 = u))).map
          (fun e => gcnCoeff edges e.2 u * (x.getD e.2 []).getD j 0)).sum))

/-- The dense linear part `H ↦ H·W + b` of `GCNConv`; the output width is the
layer's `out_dim`, the length of its bias vector. -/
def linearWb (W : List (List ℝ)) (b : List ℝ) (A : List (List ℝ)) :
    List (List ℝ) :=
  A.map (fun r =>
    (List.range b.length).map (fun j =>
      ((List.range r.length).map
        (fun k => r.getD k 0 * (W.getD k []).getD j 0)).sum + b.getD j 0))

/-- One `GCNConv` application: `conv(x, adj_t) = Â·x·W + b`. -/
def gcnConv (p : GCNConvParams) (edges : List (Nat × Nat))
    (x : List (List ℝ)) : List (List ℝ) :=
  linearWb p.W p.b (aggregate edges x)

/-- `nn.BatchNorm1d` in training mode: each channel is normalized with the
batch's biased mean and variance, then scaled and shifted. (The in-place
update of the running statistics does not affect the value returned by the
call and is elided.) -/
def batchNormTrain (p : BatchNormParams) (x : List (List ℝ)) :
    List (List ℝ) :=
  x.map (fun r =>
    (List.range r.length).map (fun c =>
      ((r.getD c 0 - (x.map (fun s => s.getD c 0)).sum / x.length) /
          Real.sqrt ((x.map (fun s =>
            (s.getD c 0 - (x.map (fun t => t.getD c 0)).sum / x.length) ^ 2)).sum
              / x.length + bnEps)) * p.gamma.getD c 0 + p.beta.getD c 0))

/-- `nn.BatchNorm1d` in eval mode: normalization uses the stored running
statistics. -/
def batchNormEval (p : BatchNormParams) (x : List (List ℝ)) :
    List (List ℝ) :=
  x.map (fun r =>
    (List.range r.length).map (fun c =>
      ((r.getD c 0 - p.running_mean.getD c 0) /
          Real.sqrt (p.running_var.getD c 0 + bnEps)) * p.gamma.getD c 0 +
        p.beta.getD c 0))

/-- `self.bns[i](x)`, dispatching on the module's training mode. -/
def batchNorm (training : Bool) (p : BatchNormParams) (x : List (List ℝ)) :
    List (List ℝ) :=
  if training then batchNormTrain p x else batchNormEval p x

/-- `F.relu` applied elementwise. -/
def relu (x : List (List ℝ)) : List (List ℝ) :=
  x.map (fun r => r.map (fun a => max a 0))

/-- `F.dropout(x, p, training)`: in training mode each entry is kept (scaled
by `1/(1-p)`) or zeroed according to the Bernoulli mask drawn for the call,
modelled as the explicit `mask` argument; in eval mode the input passes
through unchanged. -/
def dropout (p : ℝ) (training : Bool) (mask : Nat → Nat → Bool)
    (x : List (List ℝ)) : List (List ℝ) :=
  if training then
    (List.range x.length).map (fun i =>
      (List.range (x.getD i []).length).map (fun j =>
        if mask i j then (x.getD i []).getD j 0 / (1 - p) else 0))
  else x

/-- `nn.LogSoftmax` over the class dimension (`dim=1` on a 2-D input):
`v_i ↦ v_i - log (Σ_j exp v_j)` within each row. -/
def logSoftmaxRow (r : List ℝ) : List ℝ :=
  r.map (fun a => a - Real.log ((r.map Real.exp).sum))

/-- Parameter container of the `GCN` module: the `nn.ModuleList` of hidden
`GCNConv` layers, the matching `nn.ModuleList` of batch norms, the output
layer `last_gcn`, and the `return_embeds` flag. -/
structure GCNParams where
  gcnlayers : List GCNConvParams
  bns : List BatchNormParams
  last_gcn : GCNConvParams
  return_embeds : Bool

/-- `GCN.__init__(input_dim, hidden_dim, output_dim, return_embeds)` builds
exactly four hidden `GCNConv` layers, four `BatchNorm1d` layers and one
output `GCNConv`. The randomly initialized parameter values are passed in
explicitly; the dimension bookkeeping (`input_dim → hidden_dim → ... →
output_dim`) appears as hypotheses where a theorem needs it. -/
def GCN.mk4 (l1 l2 l3 l4 last_gcn : GCNConvParams)
    (b1 b2 b3 b4 : BatchNormParams) (return_embeds : Bool) : GCNParams :=
  ⟨[l1, l2, l3, l4], [b1, b2, b3, b4], last_gcn, return_embeds⟩

/-- The hidden-layer loop of `GCN.forward`: for each `(conv, bn)` pair in
order, `x = dropout(relu(bn(conv(x, adj_t))), p=0.5, training=training)`;
`i` indexes the dropout mask drawn for each stage. -/
def runLayers (edges : List (Nat × Nat)) (training : Bool)
    (masks : Nat → Nat → Nat → Bool) :
    List (GCNConvParams × BatchNormParams) → Nat → List (List ℝ) →
      List (List ℝ)
  | [], _, x => x
  | (cp, bp) :: rest, i, x =>
      runLayers edges training masks rest (i + 1)
        (dropout (1 / 2) training (masks i)
          (relu (batchNorm training bp (gcnConv cp edges x))))

/-- `GCN.forward(x, adj_t)`: the hidden-layer loop, then the output
convolution `last_gcn`, then — unless `return_embeds` is set — the final
log-softmax. `training` models `self.training`; `masks` supplies the dropout
masks drawn during this call. -/
def forward (p : GCNParams) (training : Bool)
    (masks : Nat → Nat → Nat → Bool) (x : List (List ℝ))
    (edges : List (Nat × Nat)) : List (List ℝ) :=
  let h := runLayers edges training masks (p.gcnlayers.zip p.bns) 0 x
  let out := gcnConv p.last_gcn edges h
  if p.return_embeds then out else out.map logSoftmaxRow

end

/-! ### Shape lemmas for the model -/

theorem length_linearWb (W : List (List ℝ)) (b : List ℝ) (A : List (List ℝ)) :
    (linearWb W b A).length = A.length := by
  simp [linearWb]

theorem length_of_mem_linearWb {W : List (List ℝ)} {b : List ℝ}
    {A : List (List ℝ)} {r : List ℝ} (h : r ∈ linearWb W b A) :
    r.length = b.length := by
  obtain ⟨s, -, rfl⟩ := List.mem_map.mp h
  simp

theorem length_gcnConv (p : GCNConvParams) (edges : List (Nat × Nat))
    (x : List (List ℝ)) : (gcnConv p edges x).length = x.length := by
  simp [gcnConv, linearWb, aggregate]

theorem length_batchNorm (training : Bool) (p : BatchNormParams)
    (x : List (List ℝ)) : (batchNorm training p x).length = x.length := by
  cases training <;> simp [batchNorm, batchNormTrain, batchNormEval]

theorem length_relu (x : List (List ℝ)) : (relu x).length = x.length := by
  simp [relu]

theorem length_dropout (p : ℝ) (training : Bool) (mask : Nat → Nat → Bool)
    (x : List (List ℝ)) : (dropout p training mask x).length = x.length := by
  cases training <;> simp [dropout]

theorem length_runLayers (edges : List (Nat × Nat)) (training : Bool)
    (masks : Nat → Nat → Nat → Bool) :
    ∀ (L : List (GCNConvParams × BatchNormParams)) (i : Nat)
      (x : List (List ℝ)),
      (runLayers edges training masks L i x).length = x.length := by
  intro L
  induction L with
  | nil => intro i x; rfl
  | cons hd tl ih =>
      intro i x
      obtain ⟨cp, bp⟩ := hd
      rw [runLayers, ih, length_dropout, length_relu, length_batchNorm,
        length_gcnConv]

theorem length_forward (p : GCNParams) (training : Bool)
    (masks : Nat → Nat → Nat → Bool) (x : List (List ℝ))
    (edges : List (Nat × Nat)) :
    (forward p training masks x edges).length = x.length := by
  by_cases h : p.return_embeds <;>
    simp [forward, h, length_gcnConv, length_runLayers]

theorem length_of_mem_forward {p : GCNParams} {training : Bool}
    {masks : Nat → Nat → Nat → Bool} {x : List (List ℝ)}
    {edges : List (Nat × Nat)} {r : List ℝ}
    (h : r ∈ forward p training masks x edges) :
    r.length = p.last_gcn.b.length := by
  by_cases hre : p.return_embeds
  · simp only [forward, hre, if_true] at h
    exact length_of_mem_linearWb h
  · simp only [forward, hre, if_false, Bool.false_eq_true] at h
    obtain ⟨s, hs, rfl⟩ := List.mem_map.mp h
    rw [logSoftmaxRow, List.length_map]
    exact length_of_mem_linearWb hs

/-! ## Claim C1: output shape -/

/-- C1: for every node count `N`, feature dimension `F`, hidden dimension `H`
and class count `C`, the output of `GCN.forward` on an `N × F` feature matrix
and an adjacency over `N` nodes has shape `N × C` — one row per node, one
column per class — regardless of the value of `H` (the hypotheses fixing the
hidden widths to `H` are never used). -/
theorem forward_output_shape (p : GCNParams) (N F H C : Nat)
    (l1 l2 l3 l4 ll : GCNConvParams) (b1 b2 b3 b4 : BatchNormParams)
    (re : Bool) (hp : p = GCN.mk4 l1 l2 l3 l4 ll b1 b2 b3 b4 re)
    (h1 : l1.b.length = H) (h2 : l2.b.length = H) (h3 : l3.b.length = H)
    (h4 : l4.b.length = H) (hC : ll.b.length = C)
    (training : Bool) (masks : Nat → Nat → Nat → Bool)
    (x : List (List ℝ)) (edges : List (Nat × Nat))
    (hN : x.length = N) (hF : ∀ r ∈ x, r.length = F) :
    (forward p training masks x edges).length = N ∧
    ∀ r ∈ forward p training masks x edges, r.length = C := by
  constructor
  · rw [length_forward, hN]
  · intro r hr
    rw [length_of_mem_forward hr, hp]
    exact hC

/-! ### Concrete parameter values shared by the witnesses -/

def cpZero : GCNConvParams := ⟨[], [0]⟩

def cpOne : GCNConvParams := ⟨[], [1]⟩

def bpZero : BatchNormParams := ⟨[0], [0], [0], [0]⟩

def gcnEmb : GCNParams :=
  GCN.mk4 cpZero cpZero cpZero cpZero cpOne bpZero bpZero bpZero bpZero true

def gcnSm : GCNParams :=
  GCN.mk4 cpZero cpZero cpZero cpZero cpOne bpZero bpZero bpZero bpZero false

def maskAll : Nat → Nat → Nat → Bool := fun _ _ _ => true

theorem forward_output_shape_witness :
    (forward gcnSm false maskAll [[0]] []).length = 1 ∧
    ∀ r ∈ forward gcnSm false maskAll [[0]] [], r.length = 1 :=
  forward_output_shape gcnSm 1 1 1 1 cpZero cpZero cpZero cpZero cpOne
    bpZero bpZero bpZero bpZero false rfl rfl rfl rfl rfl rfl false maskAll
    [[0]] [] rfl (by simp)

/-! ## Claim C7: the layer structure of `forward` -/

/-- C7: on a model built by `__init__`, `forward` applies exactly four hidden
stages in sequence — graph convolution, then batch normalization, then ReLU,
then dropout at rate `0.5` — followed by the one output convolution
(`last_gcn`) and the optional log-softmax; and dropout is active only in
training mode (in eval mode it is the identity). -/
theorem forward_four_hidden_stages (l1 l2 l3 l4 ll : GCNConvParams)
    (b1 b2 b3 b4 : BatchNormParams) (re : Bool) (training : Bool)
    (masks : Nat → Nat → Nat → Bool) (x : List (List ℝ))
    (edges : List (Nat × Nat)) :
    (forward (GCN.mk4 l1 l2 l3 l4 ll b1 b2 b3 b4 re) training masks x edges =
      (let stage := fun (i : Nat) (cp : GCNConvParams) (bp : BatchNormParams)
          (y : List (List ℝ)) =>
        dropout (1 / 2) training (masks i)
          (relu (batchNorm training bp (gcnConv cp edges y)));
      let h := stage 3 l4 b4 (stage 2 l3 b3 (stage 1 l2 b2 (stage 0 l1 b1 x)));
      if re then gcnConv ll edges h
      else (gcnConv ll edges h).map logSoftmaxRow)) ∧
    (∀ (q : ℝ) (mask : Nat → Nat → Bool) (y : List (List ℝ)),
      dropout q false mask y = y) := by
  constructor
  · simp [forward, GCN.mk4, runLayers]
  · intro q mask y
    simp [dropout]

/-! ## Claim C9: eval-mode determinism -/

theorem runLayers_eval_masks_eq (edges : List (Nat × Nat))
    (m1 m2 : Nat → Nat → Nat → Bool) :
    ∀ (L : List (GCNConvParams × BatchNormParams)) (i j : Nat)
      (x : List (List ℝ)),
      runLayers edges false m1 L i x = runLayers edges false m2 L j x := by
  intro L
  induction L with
  | nil => intro i j x; rfl
  | cons hd tl ih =>
      intro i j x
      obtain ⟨cp, bp⟩ := hd
      simp only [runLayers, dropout, if_false, Bool.false_eq_true]
      exact ih (i + 1) (j + 1) _

/-- C9: with the model in non-training (eval) mode and fixed parameters, two
calls of `GCN.forward` on the same features and adjacency return the same
output: the dropout masks drawn for the two calls — the only call-to-call
randomness — are ignored, so evaluation-mode forward is deterministic. -/
theorem forward_eval_deterministic (p : GCNParams)
    (masks1 masks2 : Nat → Nat → Nat → Bool) (x : List (List ℝ))
    (edges : List (Nat × Nat)) :
    forward p false masks1 x edges = forward p false masks2 x edges := by
  simp only [forward]
  rw [runLayers_eval_masks_eq edges masks1 masks2 _ 0 0 x]

/-! ## Claim C6: the optional log-softmax -/

theorem sum_exp_logSoftmaxRow (r : List ℝ) (hr : r ≠ []) :
    ((logSoftmaxRow r).map Real.exp).sum = 1 := by
  have hpos : 0 < (r.map Real.exp).sum := by
    obtain ⟨a, t, rfl⟩ := List.exists_cons_of_ne_nil hr
    have h2 : 0 ≤ (t.map Real.exp).sum := by
      apply List.sum_nonneg
      intro b hb
      obtain ⟨c, -, rfl⟩ := List.mem_map.mp hb
      exact (Real.exp_pos c).le
    have h1 := Real.exp_pos a
    simp only [List.map_cons, List.sum_cons]
    linarith
  have hmap : (logSoftmaxRow r).map Real.exp =
      r.map (fun v => Real.exp v * ((r.map Real.exp).sum)⁻¹) := by
    rw [logSoftmaxRow, List.map_map]
    apply List.map_congr_left
    intro v hv
    simp only [Function.comp_apply]
    rw [Real.exp_sub, Real.exp_log hpos, div_eq_mul_inv]
  rw [hmap, List.sum_map_mul_right]
  exact mul_inv_cancel₀ (ne_of_gt hpos)

theorem forward_gcnEmb_value :
    forward gcnEmb false maskAll [[0]] [] = [[1]] := by
  simp [forward, gcnEmb, GCN.mk4, runLayers, gcnConv, aggregate, linearWb,
    batchNorm, batchNormEval, relu, dropout, cpZero, cpOne, bpZero,
    List.range_succ]

/-- C6: when the model is constructed with `return_embeds=True`, `forward`
applies no log-softmax, so output rows are not constrained to be normalized —
witnessed by a model and input whose output row's exponentials sum to
`e ≠ 1`; when `return_embeds=False`, log-softmax is applied, so for every
(nonempty) output row the sum of the exponentials of its entries equals 1. -/
theorem forward_return_embeds_softmax :
    (∃ (p : GCNParams) (masks : Nat → Nat → Nat → Bool) (x : List (List ℝ))
        (edges : List (Nat × Nat)), p.return_embeds = true ∧
        ∃ r ∈ forward p false masks x edges, (r.map Real.exp).sum ≠ 1) ∧
    (∀ (p : GCNParams) (training : Bool) (masks : Nat → Nat → Nat → Bool)
        (x : List (List ℝ)) (edges : List (Nat × Nat)),
      p.return_embeds = false →
      ∀ r ∈ forward p training masks x edges, r ≠ [] →
        (r.map Real.exp).sum = 1) := by
  constructor
  · refine ⟨gcnEmb, maskAll, [[0]], [], rfl, [1], ?_, ?_⟩
    · rw [forward_gcnEmb_value]
      simp
    · simp only [List.map_cons, List.map_nil, List.sum_cons, List.sum_nil,
        add_zero]
      have := Real.add_one_lt_exp (x := 1) one_ne_zero
      intro h
      rw [h] at this
      linarith
  · intro p training masks x edges hre r hr hne
    simp only [forward, hre, if_false, Bool.false_eq_true] at hr
    obtain ⟨s, hs, rfl⟩ := List.mem_map.mp hr
    apply sum_exp_logSoftmaxRow
    intro hs0
    exact hne (by rw [hs0]; rfl)

theorem forward_return_embeds_softmax_witness :
    (((forward gcnSm false maskAll [[0]] []).getD 0 []).map Real.exp).sum
      = 1 := by
  have hlen : (forward gcnSm false maskAll [[0]] []).length = 1 :=
    length_forward gcnSm false maskAll [[0]] []
  have hmem : (forward gcnSm false maskAll [[0]] []).getD 0 [] ∈
      forward gcnSm false maskAll [[0]] [] := by
    rcases hcase : forward gcnSm false maskAll [[0]] [] with _ | ⟨a, t⟩
    · rw [hcase] at hlen
      simp at hlen
    · simp
  have hne : (forward gcnSm false maskAll [[0]] []).getD 0 [] ≠ [] := by
    have hl := length_of_mem_forward hmem
    intro h0
    rw [h0] at hl
    simp [gcnSm, GCN.mk4, cpOne] at hl
  exact forward_return_embeds_softmax.2 gcnSm false maskAll [[0]] [] rfl _
    hmem hne

/-! ## The training loop

Lines 196–215 of the script: per epoch, one optimizer step on the full-graph
forward pass (the step itself — forward, `nll_loss` on the train split,
backward, Adam update — is delegated to the library and abstracted as a
state-transition function `stepF` on the parameter container), then
evaluation, then the checkpoint decision on the epoch's validation accuracy
(a rational: the evaluator's fraction of correctly classified nodes,
abstracted as `accF`). The loop is generic in the parameter-container type,
so the theorems cover the script's instantiation and any other. -/

/-- The loop's mutable state: the live model parameters, the retained
best-model snapshot (`best_model`, `None` until first assigned), and the best
validation accuracy seen so far (`best_valid_acc`). -/
structure TrainState (P : Type) where
  model : P
  best_model : Option P
  best_valid_acc : ℚ
deriving DecidableEq

/-- State before the loop: freshly initialized model, `best_model = None`,
`best_valid_acc = 0`. -/
def initState {P : Type} (m : P) : TrainState P :=
  ⟨m, none, 0⟩

/-- One epoch of the loop: optimizer step, evaluation, and — exactly when the
epoch's validation accuracy strictly exceeds the best seen — replacement of
the retained snapshot by a deep copy of the current parameters (deep copying
is value copying in this pure embedding) together with the best-accuracy
update. -/
def epochStep {P : Type} (stepF : P → P) (accF : P → ℚ)
    (s : TrainState P) : TrainState P :=
  let m := stepF s.model
  let valid_acc := accF m
  if s.best_valid_acc < valid_acc then ⟨m, some m, valid_acc⟩
  else ⟨m, s.best_model, s.best_valid_acc⟩

/-- `for epoch in range(1, 1 + args["epochs"])`: the loop body runs once per
epoch with no early exit. -/
def trainLoop {P : Type} (stepF : P → P) (accF : P → ℚ) :
    Nat → TrainState P → TrainState P
  | 0, s => s
  | n + 1, s => trainLoop stepF accF n (epochStep stepF accF s)

/-- `args = {..., 'epochs': 200}`: the fixed epoch budget. -/
def args_epochs : Nat := 200

/-- The whole training run of the script: the full fixed epoch budget applied
to the initial state. -/
def runTraining {P : Type} (stepF : P → P) (accF : P → ℚ) (m : P) :
    TrainState P :=
  trainLoop stepF accF args_epochs (initState m)

theorem trainLoop_eq_iterate {P : Type} (stepF : P → P) (accF : P → ℚ) :
    ∀ (n : Nat) (s : TrainState P),
      trainLoop stepF accF n s = (epochStep stepF accF)^[n] s := by
  intro n
  induction n with
  | zero => intro s; rfl
  | succ n ih =>
      intro s
      rw [trainLoop, ih, Function.iterate_succ_apply]

/-! ## Claim C8: the checkpoint policy -/

/-- C8: each epoch replaces the retained best-model snapshot with a (deep)
copy of the current parameters and updates the best-accuracy value exactly
when the epoch's validation accuracy strictly exceeds the best seen so far,
and leaves snapshot and best value unchanged otherwise; the loop never stops
early — `n` epochs run exactly `n` iterations of the epoch body — and the
whole run performs the full fixed budget of `200` epochs starting from a
best-validation-accuracy of zero and an unset snapshot. -/
theorem trainLoop_checkpoint_policy {P : Type} (stepF : P → P)
    (accF : P → ℚ) (s : TrainState P) (m : P) (n : Nat) :
    (epochStep stepF accF s =
      if s.best_valid_acc < accF (stepF s.model) then
        ⟨stepF s.model, some (stepF s.model), accF (stepF s.model)⟩
      else ⟨stepF s.model, s.best_model, s.best_valid_acc⟩) ∧
    trainLoop stepF accF n s = (epochStep stepF accF)^[n] s ∧
    (initState m = ⟨m, none, 0⟩) ∧
    args_epochs = 200 ∧
    runTraining stepF accF m =
      (epochStep stepF accF)^[200] (initState m) := by
  refine ⟨rfl, trainLoop_eq_iterate stepF accF n s, rfl, rfl, ?_⟩
  rw [runTraining, trainLoop_eq_iterate]
  rfl

/-! ## Claim C10: a run with no improving epoch leaves `best_model` unset -/

theorem trainLoop_none_invariant {P : Type} (stepF : P → P) (accF : P → ℚ) :
    ∀ (n : Nat) (s : TrainState P), s.best_model = none →
      s.best_valid_acc = 0 →
      (∀ k, k < n → ¬ 0 < accF (stepF^[k + 1] s.model)) →
      (trainLoop stepF accF n s).best_model = none ∧
      (trainLoop stepF accF n s).best_valid_acc = 0 ∧
      (trainLoop stepF accF n s).model = stepF^[n] s.model := by
  intro n
  induction n with
  | zero => intro s h1 h2 _; exact ⟨h1, h2, rfl⟩
  | succ n ih =>
      intro s h1 h2 hacc
      have hstep : epochStep stepF accF s =
          ⟨stepF s.model, s.best_model, s.best_valid_acc⟩ := by
        have h0 := hacc 0 (Nat.succ_pos n)
        rw [Function.iterate_one] at h0
        rw [epochStep, if_neg (by rw [h2]; exact h0)]
      rw [trainLoop, hstep]
      have := ih ⟨stepF s.model, s.best_model, s.best_valid_acc⟩ h1 h2
        (fun k hk => by
          have := hacc (k + 1) (Nat.succ_lt_succ hk)
          rwa [Function.iterate_succ_apply] at this)
      refine ⟨this.1, this.2.1, ?_⟩
      rw [this.2.2, ← Function.iterate_succ_apply]

/-- C10: if no epoch's validation accuracy strictly exceeds zero during the
entire run, the best-model snapshot is never assigned and remains unset
(`None`) when the training loop terminates, even though the loop completes
all `n` epochs (the live parameters have been stepped `n` times). -/
theorem trainLoop_no_improvement_best_model_none {P : Type} (stepF : P → P)
    (accF : P → ℚ) (m : P) (n : Nat)
    (hacc : ∀ k, k < n → ¬ 0 < accF (stepF^[k + 1] m)) :
    (trainLoop stepF accF n (initState m)).best_model = none ∧
    (trainLoop stepF accF n (initState m)).model = stepF^[n] m := by
  have := trainLoop_none_invariant stepF accF n (initState m) rfl rfl hacc
  exact ⟨this.1, this.2.2⟩

theorem trainLoop_no_improvement_best_model_none_witness :
    (trainLoop (fun x : ℚ => x + 1) (fun _ => 0) 2 (initState 0)).best_model
        = none ∧
    (trainLoop (fun x : ℚ => x + 1) (fun _ => 0) 2 (initState 0)).model
        = (fun x : ℚ => x + 1)^[2] 0 :=
  trainLoop_no_improvement_best_model_none (fun x : ℚ => x + 1) (fun _ => 0)
    0 2 (fun k _ => by simp)
